import Mathlib

/-!
Verification of the `cs-interview-rag` ingestion/query pipeline.

Shallow embedding of the repository's core components:
* `Chunker` — `TextChunker.chunk_text` from `ingestion/chunker.py`, modelled
  over `List Char` with Python string semantics (negative indices, `rfind`,
  `strip`) made explicit, and the `while` loop given an explicit fuel.
* `Embedder` — `Embedder.embed_batch` from `embeddings/embedder.py`, with the
  external sentence-transformer `encode` capability as a parameter.
* `EndeeVectorStore` — `upsert_chunks` and `delete_index` from
  `vectorstore/endee_store.py`, with the external calls' outcomes as
  parameters and the records sent to the store made explicit.
* `RAGPipeline` — the answer assembly of `query` and the empty-directory
  branch of `ingest_documents` from `rag/pipeline.py`.
-/

namespace Chunker

/-- Python `str.isspace` for the ASCII whitespace characters that
`str.strip()` removes. -/
def pyIsSpace (c : Char) : Bool :=
  c = ' ' || c = '\t' || c = '\n' || c = '\r' || c = '\x0b' || c = '\x0c'

/-- Python `str.strip()`: remove leading and trailing whitespace. -/
def pyStrip (l : List Char) : List Char :=
  ((l.dropWhile pyIsSpace).reverse.dropWhile pyIsSpace).reverse

/-- Adjust a possibly negative Python index into `[0, n]`, as Python slicing
and `str.rfind` do: negative indices count from the end and are clamped. -/
def pyAdj (n : Nat) (i : Int) : Nat :=
  if i < 0 then (n + i).toNat else min i.toNat n

/-- Python slice `l[i:j]` with full Python index semantics. -/
def pySlice (l : List Char) (i j : Int) : List Char :=
  (l.take (pyAdj l.length j)).drop (pyAdj l.length i)

/-- Does `sub` occur in `l` starting at position `k`? -/
def matchAt (l sub : List Char) (k : Nat) : Bool :=
  (l.drop k).take sub.length == sub

/-- Scan downward from position `k` to position `lo` for the rightmost
occurrence of `sub`. -/
def rfindScan (l sub : List Char) (lo : Nat) : Nat → Option Nat
  | 0 => if lo = 0 ∧ matchAt l sub 0 then some 0 else none
  | k + 1 =>
    if lo ≤ k + 1 ∧ matchAt l sub (k + 1) then some (k + 1)
    else rfindScan l sub lo k

/-- Python `l.rfind(sub, i, j)`: highest `k` with `i' ≤ k`,
`k + len(sub) ≤ j'` and a match at `k`, else `-1` (indices adjusted as in
slicing). -/
def pyRfind (l sub : List Char) (i j : Int) : Int :=
  let i' := pyAdj l.length i
  let j' := pyAdj l.length j
  if sub.length ≤ j' then
    match rfindScan l sub i' (j' - sub.length) with
    | some k => (k : Int)
    | none => -1
  else -1

/-- The boundary strings searched for by `chunk_text`, in priority order. -/
def breakChars : List (List Char) :=
  [['\n', '\n'], ['\n'], ['.', ' '], ['!', ' '], ['?', ' '], [',', ' ']]

/-- The `for break_char in [...]` loop of `chunk_text`: the first boundary
string whose rightmost occurrence lies strictly beyond the chunk midpoint
wins; otherwise keep the naive end. -/
def findBreak (t : List Char) (s e0 : Int) (cs : Nat) : List (List Char) → Int
  | [] => e0
  | bc :: rest =>
    let lb := pyRfind t bc s e0
    if lb > s + (cs / 2 : Nat) then lb + bc.length
    else findBreak t s e0 cs rest

/-- A chunk as produced by `TextChunker.chunk_text`, with the two metadata
entries (`chunk_size`, `total_chunks`) as explicit fields. -/
structure Chunk where
  content : List Char
  chunk_id : Nat
  source : String
  start_char : Int
  end_char : Int
  meta_chunk_size : Nat
  total_chunks : Int
  deriving Repr, DecidableEq, Inhabited

/-- The `end` computed by one iteration of the `chunk_text` loop: the naive
end, snapped to a qualifying boundary when not at the end of the text. -/
def stepEnd (cs : Nat) (t : List Char) (s : Int) : Int :=
  let n : Int := t.length
  let e0 : Int := min (s + cs) n
  if e0 < n then findBreak t s e0 cs breakChars else e0

/-- The `while start < len(text)` loop of `chunk_text`, with explicit fuel:
`none` means the fuel ran out before the loop exited. -/
def chunkLoop (cs ov : Nat) (t : List Char) (src : String) :
    Nat → Int → Nat → List Chunk → Option (List Chunk)
  | 0, _, _, _ => none
  | fuel + 1, start, cid, acc =>
    let n : Int := t.length
    let e := stepEnd cs t start
    let content := pyStrip (pySlice t start e)
    let acc' := if content ≠ [] then
        acc ++ [⟨content, cid, src, start, e, content.length, -1⟩]
      else acc
    let cid' := if content ≠ [] then cid + 1 else cid
    let start' := e - ov
    if start' ≥ n ∨ (start' = e - ov ∧ e = n) then some acc'
    else chunkLoop cs ov t src fuel start' cid' acc'

/-- `TextChunker.chunk_text(text, source)`, fuelled.  On success the
`total_chunks` metadata of every chunk is stamped with the final count. -/
def chunk_text (cs ov : Nat) (text : List Char) (src : String) (fuel : Nat) :
    Option (List Chunk) :=
  if pyStrip text = [] then some []
  else
    let t := pyStrip text
    match chunkLoop cs ov t src fuel 0 0 [] with
    | none => none
    | some chunks => some (chunks.map fun c => { c with total_chunks := chunks.length })

/-- If an iteration of the loop neither exits nor changes `start`, the loop
returns `none` (runs out of fuel) whatever the fuel: the code's guard
`start == end - self.chunk_overlap and end == len(text)` compares `start`
with the value it was just assigned, so it only fires when
`end == len(text)`. -/
theorem chunkLoop_none_of_fix (cs ov : Nat) (t : List Char) (src : String) (s : Int)
    (hfix : stepEnd cs t s - ov = s)
    (hlt : ¬ stepEnd cs t s - (ov : Int) ≥ (t.length : Int))
    (hne : stepEnd cs t s ≠ (t.length : Int)) :
    ∀ fuel cid acc, chunkLoop cs ov t src fuel s cid acc = none := by
  intro fuel
  induction fuel with
  | zero => intro cid acc; rfl
  | succ f ih =>
    intro cid acc
    rw [chunkLoop]
    rw [if_neg]
    · rw [hfix]; exact ih _ _
    · rintro (h | ⟨-, h⟩)
      · exact hlt h
      · exact hne h

theorem pyStrip_eq_rdropWhile (l : List Char) :
    pyStrip l = List.rdropWhile pyIsSpace (l.dropWhile pyIsSpace) := rfl

theorem pyStrip_idem (l : List Char) : pyStrip (pyStrip l) = pyStrip l := by
  rw [pyStrip_eq_rdropWhile, pyStrip_eq_rdropWhile]
  have h1 : List.dropWhile pyIsSpace
      (List.rdropWhile pyIsSpace (l.dropWhile pyIsSpace)) =
      List.rdropWhile pyIsSpace (l.dropWhile pyIsSpace) := by
    rw [List.dropWhile_eq_self_iff]
    intro hl
    have hpre := List.rdropWhile_prefix pyIsSpace (l.dropWhile pyIsSpace)
    have hlen : 0 < (l.dropWhile pyIsSpace).length :=
      lt_of_lt_of_le hl hpre.length_le
    have hz := List.dropWhile_get_zero_not pyIsSpace l hlen
    have hget := hpre.getElem hl
    simpa [List.get_eq_getElem, hget] using hz
  rw [h1, List.rdropWhile_idempotent]

theorem pyStrip_length_le (l : List Char) : (pyStrip l).length ≤ l.length := by
  rw [pyStrip_eq_rdropWhile]
  exact le_trans ( List.rdropWhile_prefix pyIsSpace _).length_le
    (List.dropWhile_suffix pyIsSpace).length_le

theorem pySlice_length (t : List Char) (s e : Int) :
    (pySlice t s e).length = min (pyAdj t.length e) t.length - pyAdj t.length s := by
  simp [pySlice, List.length_drop, List.length_take]

theorem pyAdj_le_add (n : Nat) (s e0 : Int) (cs : Nat)
    (h1 : e0 ≤ s + cs) (h2 : e0 < 0 → s < 0) :
    pyAdj n e0 ≤ pyAdj n s + cs := by
  simp only [pyAdj, Nat.min_def]
  split_ifs <;> omega

theorem pyAdj_le_of_nonneg_le (n : Nat) (e : Int) (m : Nat)
    (h0 : 0 ≤ e) (h : e ≤ (m : Int)) : pyAdj n e ≤ m := by
  simp only [pyAdj, Nat.min_def]
  split_ifs <;> omega

/-- Values returned by `rfindScan` are at most the scan's starting point. -/
theorem rfindScan_le (l sub : List Char) (lo : Nat) :
    ∀ k r, rfindScan l sub lo k = some r → r ≤ k := by
  intro k
  induction k with
  | zero =>
    intro r h
    rw [rfindScan] at h
    split at h
    · cases h; exact Nat.le_refl 0
    · cases h
  | succ k ih =>
    intro r h
    rw [rfindScan] at h
    split at h
    · cases h; exact Nat.le_refl _
    · exact Nat.le_succ_of_le (ih r h)

/-- `pyRfind` returns `-1` or a position at which the pattern fits inside
the (adjusted) search window. -/
theorem pyRfind_cases (l sub : List Char) (i j : Int) :
    pyRfind l sub i j = -1 ∨
      (0 ≤ pyRfind l sub i j ∧
        pyRfind l sub i j + sub.length ≤ (pyAdj l.length j : Int)) := by
  rw [pyRfind]
  split
  · rename_i hle
    split
    · rename_i k hk
      right
      have := rfindScan_le l sub (pyAdj l.length i) _ k hk
      constructor
      · exact Int.ofNat_nonneg k
      · omega
    · left; rfl
  · left; rfl

/-- Every boundary string of the chunker has length 1 or 2. -/
theorem breakChars_length : ∀ bc ∈ breakChars, 1 ≤ bc.length ∧ bc.length ≤ 2 := by
  decide

/-- `findBreak` keeps the naive end or snaps to just after a qualifying
occurrence of one of the boundary strings. -/
theorem findBreak_cases (t : List Char) (s e0 : Int) (cs : Nat) :
    ∀ bcs : List (List Char),
      findBreak t s e0 cs bcs = e0 ∨
        ∃ bc ∈ bcs, findBreak t s e0 cs bcs = pyRfind t bc s e0 + bc.length := by
  intro bcs
  induction bcs with
  | nil => left; rfl
  | cons bc rest ih =>
    rw [findBreak]
    split
    · right; exact ⟨bc, List.mem_cons_self bc rest, rfl⟩
    · rcases ih with h | ⟨bc', hmem, h⟩
      · left; exact h
      · right; exact ⟨bc', List.mem_cons_of_mem bc hmem, h⟩

/-- The slice taken by one loop iteration never exceeds `chunk_size`
characters, whatever the (possibly negative) cursor value. -/
theorem stepEnd_slice_le (cs : Nat) (hcs : 1 ≤ cs) (t : List Char) (s : Int) :
    (pySlice t s (stepEnd cs t s)).length ≤ cs := by
  have hkey : pyAdj t.length (stepEnd cs t s) ≤ pyAdj t.length s + cs := by
    rw [stepEnd]
    split
    · rename_i hlt
      rcases findBreak_cases t s (min (s + (cs : Int)) (t.length : Int)) cs breakChars
        with h | ⟨bc, hmem, h⟩
      · rw [h]
        apply pyAdj_le_add <;> omega
      · rw [h]
        obtain ⟨hbc1, hbc2⟩ := breakChars_length bc hmem
        rcases pyRfind_cases t bc s (min (s + (cs : Int)) (t.length : Int))
          with hrf | ⟨hrf0, hrfle⟩
        · rw [hrf]
          have : pyAdj t.length (-1 + (bc.length : Int)) ≤ 1 := by
            apply pyAdj_le_of_nonneg_le <;> omega
          omega
        · have hadj : pyAdj t.length (min (s + (cs : Int)) (t.length : Int)) ≤
              pyAdj t.length s + cs := by
            apply pyAdj_le_add <;> omega
          have : pyAdj t.length (pyRfind t bc s (min (s + (cs : Int)) (t.length : Int))
              + (bc.length : Int)) ≤ pyAdj t.length s + cs := by
            apply pyAdj_le_of_nonneg_le
            · omega
            · push_cast
              omega
          exact this
    · apply pyAdj_le_add <;> omega
  rw [pySlice_length]
  omega

/-- Any property that holds of every chunk a loop iteration can emit is an
invariant of the accumulated list. -/
theorem chunkLoop_mem_of (cs ov : Nat) (t : List Char) (src : String)
    (P : Chunk → Prop)
    (hP : ∀ s cid, pyStrip (pySlice t s (stepEnd cs t s)) ≠ [] →
      P ⟨pyStrip (pySlice t s (stepEnd cs t s)), cid, src, s, stepEnd cs t s,
        (pyStrip (pySlice t s (stepEnd cs t s))).length, -1⟩) :
    ∀ fuel s cid acc out, (∀ c ∈ acc, P c) →
      chunkLoop cs ov t src fuel s cid acc = some out → ∀ c ∈ out, P c := by
  intro fuel
  induction fuel with
  | zero => intro s cid acc out _ h; cases h
  | succ f ih =>
    intro s cid acc out hacc h
    rw [chunkLoop] at h
    have hacc' : ∀ c ∈ (if pyStrip (pySlice t s (stepEnd cs t s)) ≠ [] then
        acc ++ [⟨pyStrip (pySlice t s (stepEnd cs t s)), cid, src, s, stepEnd cs t s,
          (pyStrip (pySlice t s (stepEnd cs t s))).length, -1⟩] else acc), P c := by
      split
      · rename_i hne
        intro c hc
        rcases List.mem_append.mp hc with hc | hc
        · exact hacc c hc
        · rcases List.mem_singleton.mp hc with rfl
          exact hP s cid hne
      · exact hacc
    split at h
    · cases h; exact hacc'
    · exact ih _ _ _ _ hacc' h

/-- Every chunk of a completed `chunk_text` call satisfies any property that
is preserved by the emitting iteration and is insensitive to the final
`total_chunks` stamping. -/
theorem chunk_text_mem_of (cs ov : Nat) (text : List Char) (src : String)
    (fuel : Nat) (out : List Chunker.Chunk) (P : Chunk → Prop)
    (hP : ∀ s cid, pyStrip (pySlice (pyStrip text) s (stepEnd cs (pyStrip text) s)) ≠ [] →
      P ⟨pyStrip (pySlice (pyStrip text) s (stepEnd cs (pyStrip text) s)), cid, src, s,
        stepEnd cs (pyStrip text) s,
        (pyStrip (pySlice (pyStrip text) s (stepEnd cs (pyStrip text) s))).length, -1⟩)
    (hstamp : ∀ c k, P c → P { c with total_chunks := k })
    (h : chunk_text cs ov text src fuel = some out) :
    ∀ c ∈ out, P c := by
  rw [chunk_text] at h
  split at h
  · cases h; intro c hc; cases hc
  · rcases hcl : chunkLoop cs ov (pyStrip text) src fuel 0 0 [] with _ | chunks
    · simp only [hcl] at h; cases h
    · simp only [hcl, Option.some.injEq] at h
      subst h
      intro c hc
      rcases List.mem_map.mp hc with ⟨c', hc', rfl⟩
      exact hstamp c' _
        (chunkLoop_mem_of cs ov (pyStrip text) src P hP fuel 0 0 [] chunks
          (by intro c hc; cases hc) hcl c' hc')

/-- A text on which `chunk_text(text, source)` with `chunk_size = 10`,
`chunk_overlap = 9` loops forever: the naive end is 10, the newline at
index 8 is beyond the midpoint 5, so `end` snaps to 9 and
`start = 9 - 9 = 0` again, while the exit guard needs `end == len(text)`. -/
def c1text : List Char := "aaaaaaaa\naa".data

/-- A second diverging input, for `chunk_size = 5`, `chunk_overlap = 4`:
`end` snaps to just after the newline (position 4) and `start = 4 - 4 = 0`
re-selects the same window forever. -/
def c2text : List Char := "aaa\naa".data

theorem chunk_text_c1text_none :
    ∀ fuel, chunk_text 10 9 c1text "doc" fuel = none := by
  intro fuel
  have h := chunkLoop_none_of_fix 10 9 (pyStrip c1text) "doc" 0
    (by decide) (by decide) (by decide) fuel 0 []
  rw [chunk_text, if_neg (by decide)]
  simp only [h]

theorem chunk_text_c2text_none :
    ∀ fuel, chunk_text 5 4 c2text "doc" fuel = none := by
  intro fuel
  have h := chunkLoop_none_of_fix 5 4 (pyStrip c2text) "doc" 0
    (by decide) (by decide) (by decide) fuel 0 []
  rw [chunk_text, if_neg (by decide)]
  simp only [h]

/-- C5: every chunk of a completed `chunk_text` call has its `total_chunks`
metadata equal to the length of the returned sequence (the `-1` placeholder
never survives). -/
theorem chunk_text_total_chunks_eq (cs ov : Nat) (text : List Char) (src : String)
    (fuel : Nat) (out : List Chunk)
    (h : chunk_text cs ov text src fuel = some out) :
    ∀ c ∈ out, c.total_chunks = out.length := by
  rw [chunk_text] at h
  split at h
  · cases h; intro c hc; cases hc
  · rcases hcl : chunkLoop cs ov (pyStrip text) src fuel 0 0 [] with _ | chunks
    · simp only [hcl] at h; cases h
    · simp only [hcl, Option.some.injEq] at h
      subst h
      intro c hc
      rcases List.mem_map.mp hc with ⟨c', _, rfl⟩
      simp

/-- Witness for C5 at a concrete input, instantiated at the first returned
chunk. -/
theorem chunk_text_total_chunks_eq_witness :
    ((chunk_text 20 5 "Sentence one. Sentence two. Sentence three.".data
        "s" 50).getD []).headI.total_chunks =
      ((chunk_text 20 5 "Sentence one. Sentence two. Sentence three.".data
        "s" 50).getD []).length :=
  chunk_text_total_chunks_eq 20 5
    "Sentence one. Sentence two. Sentence three.".data "s" 50
    ((chunk_text 20 5 "Sentence one. Sentence two. Sentence three.".data
      "s" 50).getD []) (by decide)
    ((chunk_text 20 5 "Sentence one. Sentence two. Sentence three.".data
      "s" 50).getD []).headI (by decide)

/-- C10: every chunk of a completed `chunk_text` call has content that is
non-empty after whitespace stripping and at most `chunk_size` characters
long. -/
theorem chunk_text_content_wf (cs ov : Nat) (hv : ov < cs) (text : List Char)
    (src : String) (fuel : Nat) (out : List Chunk)
    (h : chunk_text cs ov text src fuel = some out) :
    ∀ c ∈ out, pyStrip c.content ≠ [] ∧ c.content.length ≤ cs := by
  apply chunk_text_mem_of cs ov text src fuel out
    (fun c => pyStrip c.content ≠ [] ∧ c.content.length ≤ cs) ?_ ?_ h
  · intro s cid hne
    refine ⟨?_, ?_⟩
    · simpa [pyStrip_idem] using hne
    · exact le_trans (pyStrip_length_le _)
        (stepEnd_slice_le cs (by omega) (pyStrip text) s)
  · intro c k hc; exact hc

/-- Witness for C10 at a concrete input. -/
theorem chunk_text_content_wf_witness :
    5 < 20 ∧
      ∀ c ∈ (chunk_text 20 5 "Sentence one. Sentence two. Sentence three.".data
          "s" 50).getD [],
        pyStrip c.content ≠ [] ∧ c.content.length ≤ 20 :=
  ⟨by decide,
    chunk_text_content_wf 20 5 (by decide)
      "Sentence one. Sentence two. Sentence three.".data "s" 50 _ (by decide)⟩

/-- C4 (amended): offsets are into the stripped text, not the original:
each chunk's content is the whitespace-stripped Python slice
`text.strip()[start_char:end_char]`. -/
theorem chunk_text_offsets_into_stripped (cs ov : Nat) (text : List Char)
    (src : String) (fuel : Nat) (out : List Chunk)
    (h : chunk_text cs ov text src fuel = some out) :
    ∀ c ∈ out, c.content = pyStrip (pySlice (pyStrip text) c.start_char c.end_char) := by
  apply chunk_text_mem_of cs ov text src fuel out
    (fun c => c.content = pyStrip (pySlice (pyStrip text) c.start_char c.end_char))
    ?_ ?_ h
  · intro s cid _; rfl
  · intro c k hc; exact hc

/-- Witness for the amended C4 at a concrete input, instantiated at the
first returned chunk. -/
theorem chunk_text_offsets_into_stripped_witness :
    ((chunk_text 2 0 " ab".data "s" 5).getD []).headI.content =
      pyStrip (pySlice (pyStrip " ab".data)
        ((chunk_text 2 0 " ab".data "s" 5).getD []).headI.start_char
        ((chunk_text 2 0 " ab".data "s" 5).getD []).headI.end_char) :=
  chunk_text_offsets_into_stripped 2 0 " ab".data "s" 5
    ((chunk_text 2 0 " ab".data "s" 5).getD []) (by decide)
    ((chunk_text 2 0 " ab".data "s" 5).getD []).headI (by decide)

/-- C4 as stated is false: on input `" ab"` (leading space) the single
chunk's content is `"ab"`, but the stripped slice of the ORIGINAL text at
its recorded offsets `[0, 2)` is `"a"` — `chunk_text` strips the text
before computing offsets. -/
theorem chunk_text_offsets_counterexample :
    ¬ ∀ c ∈ (chunk_text 2 0 " ab".data "s" 5).getD [],
        c.content = pyStrip (pySlice " ab".data c.start_char c.end_char) := by
  decide

end Chunker

namespace Embedder

/-- The test `if text and text.strip()` of `embed_batch`: text truthy and
its strip truthy. -/
def validPred (t : List Char) : Bool :=
  !t.isEmpty && !(Chunker.pyStrip t).isEmpty

/-- The `enumerate`d inputs that pass the validity test. -/
def valids (texts : List (List Char)) : List (Nat × List Char) :=
  texts.enum.filter fun p => validPred p.2

/-- `valid_texts` of `embed_batch`. -/
def valid_texts (texts : List (List Char)) : List (List Char) :=
  (valids texts).map Prod.snd

/-- `valid_indices` of `embed_batch`. -/
def valid_indices (texts : List (List Char)) : List Nat :=
  (valids texts).map Prod.fst

/-- The scatter loop `for i, idx in enumerate(valid_indices): result[idx] =
embeddings[i]`, over the zipped pairs. -/
def scatter {α : Type} (res : List (List α)) : List (Nat × List α) → List (List α)
  | [] => res
  | (idx, v) :: rest => scatter (res.set idx v) rest

/-- `Embedder.embed_batch(texts)`, with the external model's `encode` batch
call as a parameter (the scalar type of the returned vectors is abstract). -/
def embed_batch {α : Type} (encode : List (List Char) → List (List α))
    (texts : List (List Char)) : List (List α) :=
  if texts.isEmpty then []
  else if (valid_texts texts).isEmpty then texts.map fun _ => []
  else
    let embeddings := encode (valid_texts texts)
    scatter (texts.map fun _ => []) ((valid_indices texts).zip embeddings)

theorem scatter_length {α : Type} (pairs : List (Nat × List α)) :
    ∀ res : List (List α), (scatter res pairs).length = res.length := by
  induction pairs with
  | nil => intro res; rfl
  | cons p rest ih =>
    intro res
    rcases p with ⟨idx, v⟩
    rw [scatter, ih, List.length_set]

theorem scatter_getElem?_not_mem {α : Type} (pairs : List (Nat × List α)) :
    ∀ (res : List (List α)) (i : Nat), i ∉ pairs.map Prod.fst →
      (scatter res pairs)[i]? = res[i]? := by
  induction pairs with
  | nil => intro res i _; rfl
  | cons p rest ih =>
    intro res i hi
    rcases p with ⟨idx, v⟩
    have hrest : i ∉ rest.map Prod.fst := by
      intro h
      exact hi (by rw [List.map_cons]; exact List.mem_cons_of_mem _ h)
    rw [scatter, ih _ _ hrest]
    refine List.getElem?_set_ne ?_
    intro h
    subst h
    exact hi (by rw [List.map_cons]; exact List.mem_cons_self _ _)

theorem scatter_getElem?_mem {α : Type} (pairs : List (Nat × List α)) :
    ∀ (res : List (List α)) (j i : Nat) (v : List α),
      (pairs.map Prod.fst).Pairwise (· < ·) →
      pairs[j]? = some (i, v) → i < res.length →
      (scatter res pairs)[i]? = some v := by
  induction pairs with
  | nil => intro res j i v _ hj _; cases hj
  | cons p rest ih =>
    intro res j i v hpw hj hlt
    rcases p with ⟨idx, v0⟩
    rcases j with _ | j
    · rw [List.getElem?_cons_zero, Option.some.injEq] at hj
      cases hj
      rw [scatter]
      rw [scatter_getElem?_not_mem]
      · exact List.getElem?_set_eq_of_lt _ hlt
      · intro hmem
        rcases (List.pairwise_cons.mp hpw).1 i hmem with h
        exact lt_irrefl i h
    · rw [List.getElem?_cons_succ] at hj
      rw [scatter]
      exact ih _ j i v (List.pairwise_cons.mp hpw).2 hj (by rw [List.length_set]; exact hlt)

/-- `valid_indices` is a strictly increasing list of positions below
`texts.length`. -/
theorem valid_indices_pairwise (texts : List (List Char)) :
    (valid_indices texts).Pairwise (· < ·) := by
  have hsub : (valid_indices texts).Sublist (texts.enum.map Prod.fst) :=
    (List.filter_sublist texts.enum).map Prod.fst
  rw [List.enum_map_fst] at hsub
  exact (List.pairwise_lt_range texts.length).sublist hsub

theorem valid_indices_lt (texts : List (List Char)) :
    ∀ i ∈ valid_indices texts, i < texts.length := by
  intro i hi
  have hsub : (valid_indices texts).Sublist (texts.enum.map Prod.fst) :=
    (List.filter_sublist texts.enum).map Prod.fst
  rw [List.enum_map_fst] at hsub
  exact List.mem_range.mp (hsub.subset hi)

theorem validPred_iff (t : List Char) :
    validPred t = true ↔ Chunker.pyStrip t ≠ [] := by
  simp only [validPred, Bool.and_eq_true, Bool.not_eq_true', List.isEmpty_eq_false,
    List.isEmpty_eq_true, ne_eq]
  constructor
  · rintro ⟨-, h⟩; exact h
  · intro h
    refine ⟨fun ht => h ?_, h⟩
    rw [ht]; rfl

theorem mem_valids_iff (texts : List (List Char)) (i : Nat) (t : List Char) :
    (i, t) ∈ valids texts ↔ texts.get? i = some t ∧ validPred t = true := by
  rw [valids, List.mem_filter, List.mk_mem_enum_iff_get?]

/-- The positional contract of `embed_batch`: output length equals input
length; empty or whitespace-only inputs map to the empty-vector sentinel;
every other position holds a non-empty vector; and position `valid_indices[j]`
of the output holds exactly the `j`-th vector returned by the underlying
batch `encode` call (same positions, same relative order). -/
def EmbedBatchSpec {α : Type} (encode : List (List Char) → List (List α))
    (texts : List (List Char)) : Prop :=
  (embed_batch encode texts).length = texts.length ∧
  (∀ i t, texts.get? i = some t → Chunker.pyStrip t = [] →
      (embed_batch encode texts)[i]? = some []) ∧
  (∀ i t, texts.get? i = some t → Chunker.pyStrip t ≠ [] →
      ∃ v, (embed_batch encode texts)[i]? = some v ∧ v ≠ []) ∧
  (∀ j i, (valid_indices texts).get? j = some i →
      (embed_batch encode texts)[i]? = (encode (valid_texts texts)).get? j)

theorem embed_batch_spec {α : Type} (encode : List (List Char) → List (List α))
    (henc_len : ∀ l, (encode l).length = l.length)
    (henc_ne : ∀ l, ∀ v ∈ encode l, v ≠ [])
    (texts : List (List Char)) : EmbedBatchSpec encode texts := by
  rw [EmbedBatchSpec]
  by_cases h0 : texts.isEmpty
  · rw [List.isEmpty_eq_true] at h0
    subst h0
    refine ⟨rfl, ?_, ?_, ?_⟩
    · intro i t ht; cases ht
    · intro i t ht; cases ht
    · intro j i hj; cases hj
  · by_cases h1 : (valid_texts texts).isEmpty
    · have hvnil : valids texts = [] := by
        rw [List.isEmpty_eq_true, valid_texts, List.map_eq_nil_iff] at h1
        exact h1
      have hout : embed_batch encode texts = texts.map fun _ => [] := by
        rw [embed_batch, if_neg (by simp [h0]), if_pos h1]
      refine ⟨?_, ?_, ?_, ?_⟩
      · rw [hout, List.length_map]
      · intro i t ht _
        rw [hout]
        have hi : i < texts.length := List.get?_eq_some.mp ht |>.1
        simp only [List.getElem?_map]
        rw [List.getElem?_eq_getElem hi]
        rfl
      · intro i t ht hne
        exfalso
        have : (i, t) ∈ valids texts :=
          (mem_valids_iff texts i t).mpr ⟨ht, (validPred_iff t).mpr hne⟩
        rw [hvnil] at this
        cases this
      · intro j i hj
        rw [valid_indices, hvnil] at hj
        cases hj
    · have hlen_vi : (valid_indices texts).length = (valids texts).length :=
        List.length_map _ _
      have hlen_vt : (valid_texts texts).length = (valids texts).length :=
        List.length_map _ _
      have hlen_enc : (encode (valid_texts texts)).length = (valids texts).length := by
        rw [henc_len, hlen_vt]
      have hout : embed_batch encode texts =
          scatter (texts.map fun _ => [])
            ((valid_indices texts).zip (encode (valid_texts texts))) := by
        rw [embed_batch, if_neg (by simp [h0]), if_neg (by simp [h1])]
      have hmapfst : (((valid_indices texts).zip
          (encode (valid_texts texts))).map Prod.fst) = valid_indices texts :=
        List.map_fst_zip _ _ (by rw [hlen_vi, hlen_enc])
      have hc4 : ∀ j i, (valid_indices texts).get? j = some i →
          (embed_batch encode texts)[i]? = (encode (valid_texts texts)).get? j := by
        intro j i hj
        have hjlt : j < (valid_indices texts).length := List.get?_eq_some.mp hj |>.1
        have hjenc : j < (encode (valid_texts texts)).length := by
          rw [hlen_enc, ← hlen_vi]; exact hjlt
        obtain ⟨v, hv⟩ : ∃ v, (encode (valid_texts texts)).get? j = some v := by
          rw [List.get?_eq_getElem?, List.getElem?_eq_getElem hjenc]
          exact ⟨_, rfl⟩
        have hpair : ((valid_indices texts).zip
            (encode (valid_texts texts))).get? j = some (i, v) :=
          (List.get?_zip_eq_some _ _ _ _).mpr ⟨hj, hv⟩
        have hilt : i < texts.length :=
          valid_indices_lt texts i (List.get?_mem hj)
        rw [hout, hv]
        refine scatter_getElem?_mem _ _ j i v ?_ ?_ ?_
        · rw [hmapfst]; exact valid_indices_pairwise texts
        · rw [← List.get?_eq_getElem?]; exact hpair
        · rw [List.length_map]; exact hilt
      refine ⟨?_, ?_, ?_, hc4⟩
      · rw [hout, scatter_length, List.length_map]
      · intro i t ht hstrip
        have hnotmem : i ∉ valid_indices texts := by
          intro hmem
          rcases List.mem_map.mp hmem with ⟨⟨i', t'⟩, hp, hfst⟩
          have hii : i' = i := hfst
          subst hii
          obtain ⟨hg, hvp⟩ := (mem_valids_iff texts i' t').mp hp
          rw [ht] at hg
          injection hg with hg
          subst hg
          exact (validPred_iff t).mp hvp hstrip
        rw [hout, scatter_getElem?_not_mem _ _ _ (by rw [hmapfst]; exact hnotmem)]
        have hi : i < texts.length := List.get?_eq_some.mp ht |>.1
        simp only [List.getElem?_map]
        rw [List.getElem?_eq_getElem hi]
        rfl
      · intro i t ht hstrip
        have hmem : i ∈ valid_indices texts := by
          refine List.mem_map.mpr ⟨(i, t), ?_, rfl⟩
          exact (mem_valids_iff texts i t).mpr ⟨ht, (validPred_iff t).mpr hstrip⟩
        rcases List.get?_of_mem hmem with ⟨j, hj⟩
        have hjenc : j < (encode (valid_texts texts)).length := by
          have := List.get?_eq_some.mp hj |>.1
          rw [hlen_enc, ← hlen_vi]; exact this
        obtain ⟨v, hv⟩ : ∃ v, (encode (valid_texts texts)).get? j = some v := by
          rw [List.get?_eq_getElem?, List.getElem?_eq_getElem hjenc]
          exact ⟨_, rfl⟩
        refine ⟨v, ?_, ?_⟩
        · rw [hc4 j i hj, hv]
        · exact henc_ne _ v (List.get?_mem hv)

/-- Witness inputs for `embed_batch_spec`: the concrete scenario
`embed_batch(["", "hello world"])` with a unit-vector encoder. -/
def witnessEncode : List (List Char) → List (List Nat) :=
  fun l => l.map fun _ => [7]

/-- Witness texts: an empty string and a non-empty one. -/
def witnessTexts : List (List Char) := ["".data, "hello world".data]

/-- Witness for C3 at a concrete input. -/
theorem embed_batch_spec_witness : EmbedBatchSpec witnessEncode witnessTexts :=
  embed_batch_spec witnessEncode
    (fun l => List.length_map l _)
    (fun l v hv => by
      rcases List.mem_map.mp hv with ⟨x, -, h⟩
      rw [← h]
      intro hc
      cases hc)
    witnessTexts

end Embedder

namespace EndeeVectorStore

/-- One record of an `index.upsert` payload, as built by `upsert_chunks`
(`id`, `vector`, the `meta` map's entries, and the `filter` map's entry). -/
structure VecEntry (α : Type) where
  id : String
  vector : List α
  meta_source : String
  meta_chunk_id : Nat
  meta_content : List Char
  meta_content_preview : List Char
  meta_start_char : Int
  meta_end_char : Int
  filter_source : String

/-- The bounded content preview: first 200 characters plus a truncation
marker when longer. -/
def content_preview (content : List Char) : List Char :=
  if content.length > 200 then content.take 200 ++ "...".data else content

/-- The record `upsert_chunks` builds for one chunk/embedding pair. -/
def mkVecEntry {α : Type} (c : Chunker.Chunk) (e : List α) : VecEntry α :=
  { id := c.source ++ "_chunk_" ++ toString c.chunk_id
    vector := e
    meta_source := c.source
    meta_chunk_id := c.chunk_id
    meta_content := c.content
    meta_content_preview := content_preview c.content
    meta_start_char := c.start_char
    meta_end_char := c.end_char
    filter_source := c.source }

/-- The batched send loop `for i in range(0, len(vectors), 100)`: the
returned count is the sum of the batch lengths when every send succeeds. -/
def upsertBatchesTotal {β : Type} : List β → Nat
  | [] => 0
  | x :: xs => ((x :: xs).take 100).length + upsertBatchesTotal ((x :: xs).drop 100)
termination_by l => l.length
decreasing_by
  simp only [List.length_drop, List.length_cons]
  omega

/-- `EndeeVectorStore.upsert_chunks(chunks, embeddings)` in the scenario
where every batch send succeeds: a validation error on mismatched lengths,
otherwise the total count together with the records sent. -/
def upsert_chunks {α : Type} (chunks : List Chunker.Chunk)
    (embeddings : List (List α)) : Except String (Nat × List (VecEntry α)) :=
  if chunks.length ≠ embeddings.length then
    Except.error "Number of chunks and embeddings must match"
  else if chunks = [] then Except.ok (0, [])
  else
    Except.ok
      (upsertBatchesTotal ((chunks.zip embeddings).map fun p => mkVecEntry p.1 p.2),
        (chunks.zip embeddings).map fun p => mkVecEntry p.1 p.2)

theorem upsertBatchesTotal_eq_length_aux {β : Type} :
    ∀ (n : Nat) (l : List β), l.length ≤ n → upsertBatchesTotal l = l.length := by
  intro n
  induction n with
  | zero =>
    intro l hl
    have hnil : l = [] := List.length_eq_zero.mp (Nat.le_zero.mp hl)
    subst hnil
    rw [upsertBatchesTotal]
    rfl
  | succ n ih =>
    intro l hl
    cases l with
    | nil => rw [upsertBatchesTotal]; rfl
    | cons x xs =>
      rw [upsertBatchesTotal]
      rw [ih ((x :: xs).drop 100)
        (by simp only [List.length_drop, List.length_cons] at hl ⊢; omega)]
      simp only [List.length_take, List.length_drop, List.length_cons]
      omega

theorem upsertBatchesTotal_eq_length {β : Type} (l : List β) :
    upsertBatchesTotal l = l.length :=
  upsertBatchesTotal_eq_length_aux l.length l (Nat.le_refl _)

/-- C6: `upsert_chunks` raises a validation error exactly when the lengths
differ; with equal lengths and all batch sends succeeding it returns
`len(chunks)`, and the record for chunk `c` has id
`c.source + "_chunk_" + str(c.chunk_id)`. -/
theorem upsert_chunks_spec {α : Type} (chunks : List Chunker.Chunk)
    (embeddings : List (List α)) :
    (chunks.length ≠ embeddings.length →
      upsert_chunks chunks embeddings =
        Except.error "Number of chunks and embeddings must match") ∧
    (chunks.length = embeddings.length →
      ∃ vectors, upsert_chunks chunks embeddings = Except.ok (chunks.length, vectors) ∧
        ∀ i c, chunks.get? i = some c →
          (vectors.get? i).map VecEntry.id =
            some (c.source ++ "_chunk_" ++ toString c.chunk_id)) := by
  constructor
  · intro h
    rw [upsert_chunks, if_pos h]
  · intro h
    rw [upsert_chunks, if_neg (by omega)]
    by_cases hnil : chunks = []
    · subst hnil
      rw [if_pos rfl]
      exact ⟨[], rfl, by intro i c hc; cases hc⟩
    · have htot : upsertBatchesTotal
          ((chunks.zip embeddings).map fun p => mkVecEntry p.1 p.2) =
          chunks.length := by
        rw [upsertBatchesTotal_eq_length, List.length_map, List.length_zip, h,
          Nat.min_self, ← h]
      rw [if_neg hnil, htot]
      refine ⟨_, rfl, ?_⟩
      · intro i c hc
        have hi : i < chunks.length := List.get?_eq_some.mp hc |>.1
        have hie : i < embeddings.length := by omega
        obtain ⟨e, he⟩ : ∃ e, embeddings.get? i = some e := by
          rw [List.get?_eq_getElem?, List.getElem?_eq_getElem hie]
          exact ⟨_, rfl⟩
        have hzip : (chunks.zip embeddings).get? i = some (c, e) :=
          (List.get?_zip_eq_some _ _ _ _).mpr ⟨hc, he⟩
        rw [List.get?_map, hzip]
        rfl

/-- A concrete chunk used by the witnesses. -/
def wchunk : Chunker.Chunk :=
  { content := "ab".data, chunk_id := 3, source := "doc.txt",
    start_char := 0, end_char := 2, meta_chunk_size := 2, total_chunks := 1 }

/-- Witness for C6: a mismatched call errors, and a matched call returns the
count with the composite-key id. -/
theorem upsert_chunks_spec_witness :
    upsert_chunks (α := Nat) [wchunk] [] =
        Except.error "Number of chunks and embeddings must match" ∧
      ∃ vectors, upsert_chunks (α := Nat) [wchunk] [[5]] =
          Except.ok ([wchunk].length, vectors) ∧
        ∀ i c, [wchunk].get? i = some c →
          (vectors.get? i).map VecEntry.id =
            some (c.source ++ "_chunk_" ++ toString c.chunk_id) :=
  ⟨(upsert_chunks_spec [wchunk] []).1 (by decide),
    (upsert_chunks_spec [wchunk] [[5]]).2 (by decide)⟩

/-- The store's local cached index handle: `self._index`, `none` when
unresolved (Unknown). -/
structure StoreState where
  cached_index : Option Nat

/-- `EndeeVectorStore.delete_index()`: the external delete call's outcome is
a parameter.  The `try` block runs `client.delete_index` and only then
`self._index = None`; the `except` branch merely prints, so the method
never raises, but on failure the cached handle is left untouched. -/
def delete_index (deleteResult : Except String Unit) (st : StoreState) : StoreState :=
  match deleteResult with
  | Except.ok _ => { st with cached_index := none }
  | Except.error _ => st

/-- C7 as stated is false: when the external delete fails and a handle was
cached, `delete_index` leaves the cached handle in place (the reset line
sits after the client call inside the `try`), so the state is not Unknown. -/
theorem delete_index_counterexample :
    (delete_index (Except.error "boom") ⟨some 7⟩).cached_index ≠ none := by
  intro h
  cases h

/-- C7 (amended): `delete_index` never raises; on success the cached handle
is cleared to the unresolved state, on failure it is left unchanged. -/
theorem delete_index_spec (st : StoreState) :
    (∀ u, delete_index (Except.ok u) st = { st with cached_index := none }) ∧
      (∀ msg, delete_index (Except.error msg) st = st) :=
  ⟨fun _ => rfl, fun _ => rfl⟩

end EndeeVectorStore

namespace RAGPipeline

/-- A search hit as consumed by `query` (similarity values are kept
abstract in the scalar type). -/
structure SearchResult (σ : Type) where
  id : String
  similarity : σ
  content : String
  source : String

/-- `RAGResponse`: answer, provenance records (source, similarity, preview),
the original question, and the retrieved count. -/
structure RAGResponse (σ : Type) where
  answer : String
  sources : List (String × σ × String)
  query : String
  retrieved_chunks : Nat

/-- The resolved generation backend: `self._llm_type` is `None`, `"ollama"`
or `"gemini"`. -/
inductive LLMType where
  | unavailable
  | ollama
  | gemini
  deriving DecidableEq

/-- The bounded source preview: first 150 characters plus a truncation
marker when longer. -/
def truncPreview (content : String) : String :=
  if content.length > 150 then content.take 150 ++ "..." else content

/-- One entry of the context block built from a search result (the
similarity formatting `:.3f` of the external float is a parameter). -/
def contextEntry {σ : Type} (fmt : σ → String) (i : Nat) (r : SearchResult σ) : String :=
  "[" ++ toString i ++ "] From \x27" ++ r.source ++ "\x27 (similarity: " ++
    fmt r.similarity ++ "):\n" ++ r.content

/-- The context block: entries numbered from 1, joined by a visible divider. -/
def buildContext {σ : Type} (fmt : σ → String) (results : List (SearchResult σ)) : String :=
  String.intercalate "\n\n---\n\n" (results.enum.map fun p => contextEntry fmt (p.1 + 1) p.2)

/-- The `sources` provenance list of `query`. -/
def buildSources {σ : Type} (results : List (SearchResult σ)) : List (String × σ × String) :=
  results.map fun r => (r.source, r.similarity, truncPreview r.content)

/-- `SYSTEM_PROMPT.format(context=context)`: the grounding-enforcing system
instruction with the context block substituted. -/
def SYSTEM_PROMPT (context : String) : String :=
  "You are a Computer Science interview preparation assistant. Your role is to help candidates understand CS concepts for technical interviews.\n\nCRITICAL RULES:\n1. Answer ONLY using the provided context below\n2. If the context doesn\x27t contain relevant information, say: \"I don\x27t have information about this topic in my current knowledge base. Please add relevant study materials.\"\n3. Never make up information or use knowledge outside the provided context\n4. Cite the source document when providing information\n5. Keep answers concise but comprehensive enough for interview preparation\n\nContext from study materials:\n"
    ++ context ++
    "\n\n---\nAnswer the following question based ONLY on the context above."

/-- Step 3 of `query` (answer generation): with no backend, the labelled
retrieved context; with a backend, invoke it on the built prompt (the
external call's outcome is the parameter `invoke`), and degrade any failure
to an error description plus the retrieved context. -/
def queryAnswer {σ : Type} (fmt : σ → String) (llm : LLMType)
    (invoke : String → Except String String)
    (results : List (SearchResult σ)) (question : String) : String :=
  match llm with
  | LLMType.unavailable =>
    "Retrieved context (LLM not configured):\n\n" ++ buildContext fmt results
  | _ =>
    match invoke (SYSTEM_PROMPT (buildContext fmt results) ++
        "\n\nQuestion: " ++ question ++ "\n\nAnswer:") with
    | Except.ok t => t
    | Except.error e =>
      "Error generating answer: " ++ e ++ "\n\nRetrieved context:\n" ++
        buildContext fmt results

/-- `RAGPipeline.query` from the point where embedding and search have
succeeded: `results` is what the vector store returned. -/
def query {σ : Type} (fmt : σ → String) (llm : LLMType)
    (invoke : String → Except String String)
    (results : List (SearchResult σ)) (question : String) : RAGResponse σ :=
  if results.isEmpty then
    { answer := "I couldn\x27t find any relevant information in my knowledge base. Please make sure documents have been ingested."
      sources := []
      query := question
      retrieved_chunks := 0 }
  else
    { answer := queryAnswer fmt llm invoke results question
      sources := buildSources results
      query := question
      retrieved_chunks := results.length }

/-- C8: once retrieval has succeeded with at least one result, `query`
returns normally in both degraded modes: with no backend the answer is the
literal "Retrieved context" marker followed by the context block, and with a
backend whose invocation fails the answer is the error description followed
by the retrieved context. -/
theorem query_degraded_spec {σ : Type} (fmt : σ → String)
    (invoke : String → Except String String)
    (results : List (SearchResult σ)) (question : String)
    (hne : results ≠ []) :
    ((query fmt LLMType.unavailable invoke results question).answer =
        "Retrieved context (LLM not configured):\n\n" ++ buildContext fmt results) ∧
      (∀ llm, llm ≠ LLMType.unavailable → ∀ e : String,
        (query fmt llm (fun _ => Except.error e) results question).answer =
          "Error generating answer: " ++ e ++ "\n\nRetrieved context:\n" ++
            buildContext fmt results) := by
  have hie : results.isEmpty = false := by
    rw [List.isEmpty_eq_false]; exact hne
  constructor
  · rw [query, if_neg (by rw [hie]; intro h; cases h)]
    rfl
  · intro llm hllm e
    rw [query, if_neg (by rw [hie]; intro h; cases h)]
    cases llm with
    | unavailable => exact absurd rfl hllm
    | ollama => rfl
    | gemini => rfl

/-- Witness for C8 at a concrete retrieval result. -/
theorem query_degraded_spec_witness :
    ([(⟨"doc_chunk_0", 9, "hash tables are fast", "doc.txt"⟩ : SearchResult Nat)] ≠ []) ∧
      ((query toString LLMType.unavailable (fun _ => Except.ok "x")
          [⟨"doc_chunk_0", 9, "hash tables are fast", "doc.txt"⟩]
          "What is a hash table?").answer =
        "Retrieved context (LLM not configured):\n\n" ++
          buildContext toString
            [(⟨"doc_chunk_0", 9, "hash tables are fast", "doc.txt"⟩ : SearchResult Nat)]) ∧
      (∀ llm, llm ≠ LLMType.unavailable → ∀ e : String,
        (query toString llm (fun _ => Except.error e)
            [(⟨"doc_chunk_0", 9, "hash tables are fast", "doc.txt"⟩ : SearchResult Nat)]
            "What is a hash table?").answer =
          "Error generating answer: " ++ e ++ "\n\nRetrieved context:\n" ++
            buildContext toString
              [(⟨"doc_chunk_0", 9, "hash tables are fast", "doc.txt"⟩ : SearchResult Nat)]) :=
  by
  refine ⟨?_, ?_, ?_⟩
  · intro h; cases h
  · exact (query_degraded_spec toString (fun _ => Except.ok "x")
      [⟨"doc_chunk_0", 9, "hash tables are fast", "doc.txt"⟩]
      "What is a hash table?" (by intro h; cases h)).1
  · exact (query_degraded_spec toString (fun _ => Except.error "unused")
      [⟨"doc_chunk_0", 9, "hash tables are fast", "doc.txt"⟩]
      "What is a hash table?" (by intro h; cases h)).2

/-- A loaded document: `content` and `source` are all the pipeline uses. -/
structure Document where
  content : String
  source : String

/-- An operation performed against the vector store during ingestion. -/
inductive StoreOp (α : Type) where
  | create_index (recreate : Bool)
  | upsert (vectors : List (EndeeVectorStore.VecEntry α))

/-- `TextChunker.chunk_documents(documents)`: per-document `chunk_text`
results concatenated in input order (fuelled like `chunk_text`). -/
def chunk_documents (cs ov fuel : Nat) : List Document → Option (List Chunker.Chunk)
  | [] => some []
  | d :: ds =>
    match Chunker.chunk_text cs ov d.content.data d.source fuel with
    | none => none
    | some cks =>
      match chunk_documents cs ov fuel ds with
      | none => none
      | some rest => some (cks ++ rest)

/-- `RAGPipeline.ingest_documents(directory, recreate_index)` with the
loader's output as the `docs` parameter: returns the stored count (or the
propagated validation error) together with the trace of vector-store
operations performed. -/
def ingest_documents {α : Type} (encode : List (List Char) → List (List α))
    (cs ov fuel : Nat) (docs : List Document) (recreate_index : Bool) :
    Option (Except String Nat × List (StoreOp α)) :=
  if docs.isEmpty then some (Except.ok 0, [])
  else
    match chunk_documents cs ov fuel docs with
    | none => none
    | some chunks =>
      match EndeeVectorStore.upsert_chunks chunks
          (Embedder.embed_batch encode (chunks.map fun c => c.content)) with
      | Except.error e => some (Except.error e, [StoreOp.create_index recreate_index])
      | Except.ok (n, vectors) =>
        some (Except.ok n, [StoreOp.create_index recreate_index, StoreOp.upsert vectors])

/-- C9: when document loading yields zero documents, `ingest_documents`
returns 0 without raising and performs no vector-store operation at all
(no `create_index`, no upsert). -/
theorem ingest_documents_empty {α : Type} (encode : List (List Char) → List (List α))
    (cs ov fuel : Nat) (recreate_index : Bool) (docs : List Document)
    (h : docs = []) :
    ingest_documents encode cs ov fuel docs recreate_index =
      some (Except.ok 0, ([] : List (StoreOp α))) := by
  subst h
  rfl

/-- Witness for C9 at a concrete configuration. -/
theorem ingest_documents_empty_witness :
    ingest_documents (α := Nat) (fun l => l.map fun _ => [1]) 1000 200 10 [] false =
      some (Except.ok 0, ([] : List (StoreOp Nat))) :=
  ingest_documents_empty (fun l => l.map fun _ => [1]) 1000 200 10 false [] rfl

end RAGPipeline
